import Mathlib

/-!
# LinkedVector: a shallow embedding of `src/src/lib.rs`

This file models the `LinkedVector<T>` container (an array-backed singly
linked list with a free list) and proves or refutes the specification
claims against it.

Modelling conventions:

* Rust panics (`expect`, `unwrap`, out-of-bounds `Vec` indexing, and
  arithmetic underflow of `usize` subtraction under checked semantics)
  are modelled by returning `none` from an `Option`-valued function.
  An operation that panics has no resulting state.
* `debug_assert!`/`debug_assert_eq!` are compiled out in release builds
  and are not part of the stable contract, so they are not modelled as
  guards; the invariants they assert are stated as theorems instead.
* `Vec<T>` is modelled as `List`, with `push` appending at the end and
  `pop` removing the last element (`getLast?` / `dropLast`).
* The reserved capacity of the `data` vector is tracked by the field
  `dataCap`; Rust only guarantees a lower bound for it, and the model
  updates it to the minimal value guaranteed (`max` of the old capacity
  and the new length on growth).
* In-place slot writes `self.data[idx] = node` (with `idx` drawn from the
  free list, in bounds in every state the library can reach) are modelled
  with `List.set`; theorems whose truth depends on the write landing use
  an explicit in-bounds hypothesis.
-/

/-- One slot of the backing array: `LinkedNode<T>` from the source,
with `item: Option<T>` and `next: Option<usize>`. -/
structure LinkedNode (T : Type) where
  item : Option T
  next : Option Nat
  deriving Repr, DecidableEq

/-- The container `LinkedVector<T>` from the source: a backing vector of
nodes, optional head/tail slot indices, a free list of recycled slot
indices, and the count of live elements. `dataCap` models the reserved
capacity of the backing vector. -/
structure LinkedVector (T : Type) where
  data : List (LinkedNode T)
  dataCap : Nat
  head : Option Nat
  tail : Option Nat
  freelist : List Nat
  length : Nat
  deriving Repr, DecidableEq

namespace LinkedVector

variable {T : Type}

/-- Constructor `LinkedVector::new()`: empty backing vector, no head/tail, empty
free list, length 0. -/
def new : LinkedVector T :=
  { data := [], dataCap := 0, head := none, tail := none, freelist := [], length := 0 }

/-- Modelled from the spec: `with_capacity` is called by the benchmark
harness in `src/benches/benchmark.rs` but its definition is absent from
`src/src/lib.rs`. The spec describes it as an "empty list whose backing
array pre-reserves room for `n` slots (no live elements)". -/
def with_capacity (n : Nat) : LinkedVector T :=
  { data := [], dataCap := n, head := none, tail := none, freelist := [], length := 0 }

/-- Query `LinkedVector::len()`: the number of live elements. The
`debug_assert_eq!` inside it is compiled out in release builds. -/
def len (lv : LinkedVector T) : Nat := lv.length

/-- Query `LinkedVector::true_len()`: the size of the backing vector. -/
def true_len (lv : LinkedVector T) : Nat := lv.data.length

/-- Query `LinkedVector::capacity()`: the reserved capacity of the backing
vector. -/
def capacity (lv : LinkedVector T) : Nat := lv.dataCap

/-- Overwrite the `next` link of the node at physical position `i`,
leaving the list unchanged when `i` is out of bounds (models the
in-place write `tail_node.next = ...` at an in-bounds index). -/
def setNext : List (LinkedNode T) → Nat → Option Nat → List (LinkedNode T)
  | [], _, _ => []
  | node :: rest, 0, nxt => { node with next := nxt } :: rest
  | node :: rest, Nat.succ i, nxt => node :: setNext rest i nxt

/-- Allocator `LinkedVector::alloc`: pop an index off the free list and overwrite
that slot, or append a new slot at the end of the backing vector.
Returns the physical index used together with the updated state. -/
def alloc (lv : LinkedVector T) (new_node : LinkedNode T) : Nat × LinkedVector T :=
  match lv.freelist.getLast? with
  | some idx =>
      (idx, { lv with data := lv.data.set idx new_node, freelist := lv.freelist.dropLast })
  | none =>
      (lv.data.length,
        { lv with data := lv.data ++ [new_node],
                  dataCap := max lv.dataCap (lv.data.length + 1) })

/-- Operation `LinkedVector::push_front`: allocate a node whose `next` is the old
head, make it the new head, and set `tail` as well when `tail` was
absent. -/
def push_front (lv : LinkedVector T) (item : T) : LinkedVector T :=
  let r := lv.alloc { item := some item, next := lv.head }
  let lv' := r.2
  { lv' with
      head := some r.1,
      tail := if lv'.tail = none then some r.1 else lv'.tail,
      length := lv'.length + 1 }

/-- Query `LinkedVector::head()`: the node at the head slot, `none` when the
list is empty (or, modelling a panic, when the slot index is out of
bounds). -/
def head_node (lv : LinkedVector T) : Option (LinkedNode T) :=
  lv.head.bind fun idx => lv.data[idx]?

/-- Query `LinkedVector::tail()`: the node at the tail slot, `none` when
`tail` is absent. -/
def tail_node (lv : LinkedVector T) : Option (LinkedNode T) :=
  lv.tail.bind fun idx => lv.data[idx]?

/-- Operation `LinkedVector::push_back`: allocate a node with `next = None`; when
a tail exists, link the node at the tail index to the new slot and move
`tail`; otherwise set both `head` and `tail` to the new slot. -/
def push_back (lv : LinkedVector T) (item : T) : LinkedVector T :=
  let r := lv.alloc { item := some item, next := none }
  let nidx := r.1
  let lv' := r.2
  match lv'.tail with
  | some tidx =>
      { lv' with
          data := setNext lv'.data tidx (some nidx),
          tail := some nidx,
          length := lv'.length + 1 }
  | none =>
      { lv' with head := some nidx, tail := some nidx, length := lv'.length + 1 }

/-- Operation `LinkedVector::pop_front`. The source decrements `length` *before*
testing `head`, so on a state with `length == 0` the `usize` subtraction
underflows: that panic is modelled as `none`. Otherwise the result
mirrors `self.head.map(...)`: `some (none, _)` when `head` is absent,
and on success the head element is taken out of its slot, the slot index
is pushed onto the free list, and `head` advances. `tail` is never
touched. -/
def pop_front (lv : LinkedVector T) : Option (Option T × LinkedVector T) :=
  if lv.length = 0 then none
  else
    match lv.head with
    | none => some (none, { lv with length := lv.length - 1 })
    | some oidx =>
        match lv.data[oidx]? with
        | none => none
        | some node =>
            match node.item with
            | none => none
            | some x =>
                some (some x,
                  { lv with
                      head := node.next,
                      data := lv.data.set oidx { node with item := none },
                      freelist := lv.freelist ++ [oidx],
                      length := lv.length - 1 })

/-- One hop along a `next` link: requires the current index to be
present and in bounds (an `expect`/indexing panic otherwise). -/
def chainStep (lv : LinkedVector T) (cur : Option Nat) : Option Nat :=
  cur.bind fun c => (lv.data[c]?).bind LinkedNode.next

/-- Iterate `chainStep` a given number of times. -/
def follow (lv : LinkedVector T) : Nat → Option Nat → Option Nat
  | 0, cur => cur
  | Nat.succ k, cur => lv.follow k (lv.chainStep cur)

/-- Traversal `LinkedVector::physical_index_of`: start at `head` and follow
`next` links `index` times; every `expect` panic along the way is
modelled as `none`. -/
def physical_index_of (lv : LinkedVector T) (index : Nat) : Option Nat :=
  lv.follow index lv.head

/-- Operation `LinkedVector::delete`. For `idx == 0` it defers to `pop_front` and
unwraps the result. Otherwise it finds the predecessor's physical index,
re-links it past the removed slot, pushes the removed slot on the free
list, decrements `length`, and finally returns
`self.data[idx].item.take().unwrap()` — note that the source takes the
item at position `idx` of the backing vector, not at `remove_phys`. -/
def delete (lv : LinkedVector T) (idx : Nat) : Option (T × LinkedVector T) :=
  if idx = 0 then
    lv.pop_front.bind fun p => p.1.map fun x => (x, p.2)
  else
    match lv.physical_index_of (idx - 1) with
    | none => none
    | some prev_phys =>
        match (lv.data[prev_phys]?).bind LinkedNode.next with
        | none => none
        | some remove_phys =>
            match lv.data[remove_phys]? with
            | none => none
            | some removeNode =>
                if lv.length = 0 then none
                else
                  let data1 := setNext lv.data prev_phys removeNode.next
                  match data1[idx]? with
                  | none => none
                  | some node =>
                      match node.item with
                      | none => none
                      | some x =>
                          some (x,
                            { lv with
                                data := data1.set idx { node with item := none },
                                freelist := lv.freelist ++ [remove_phys],
                                length := lv.length - 1 })

/-- The `Index` impl for `LinkedVector`: follow `next` links `index`
times from `head` and return the node at the resulting physical index;
all `expect`/indexing panics are modelled as `none`. -/
def index_get (lv : LinkedVector T) (index : Nat) : Option (LinkedNode T) :=
  (lv.follow index lv.head).bind fun c => lv.data[c]?

/-- Push a whole list of values with `push_back`, starting from the
empty container. -/
def fromListBack (vs : List T) : LinkedVector T :=
  vs.foldl push_back new

end LinkedVector

namespace LinkedVector

variable {T : Type}

/-! ## Basic lemmas about `setNext` -/

theorem length_setNext (l : List (LinkedNode T)) (i : Nat) (nxt : Option Nat) :
    (setNext l i nxt).length = l.length := by
  induction l generalizing i with
  | nil => rfl
  | cons a rest ih =>
    cases i with
    | zero => rfl
    | succ j => simpa [setNext] using ih j

theorem getElem?_setNext (l : List (LinkedNode T)) (i j : Nat) (nxt : Option Nat) :
    (setNext l i nxt)[j]? =
      if j = i then (l[i]?).map (fun node => { node with next := nxt }) else l[j]? := by
  induction l generalizing i j with
  | nil => simp [setNext]
  | cons a rest ih =>
    cases i with
    | zero =>
      cases j with
      | zero => simp [setNext]
      | succ k => simp [setNext]
    | succ m =>
      cases j with
      | zero => simp [setNext]
      | succ k => simpa [setNext] using ih m k

/-! ## The shape of a container built by `push_back` alone

Starting from `new` and only pushing at the back, the backing array holds
the pushed values in order, each node linking to the physically next slot.
`ChainInv vs lv` records this correspondence. -/

/-- The node that position `i` of the backing array holds after pushing
the values `vs` in order with `push_back`. -/
def nodeAt (vs : List T) (i : Nat) : Option (LinkedNode T) :=
  (vs[i]?).map fun x =>
    { item := some x, next := if i + 1 < vs.length then some (i + 1) else none }

/-- The state reached by `push_back`-ing `vs` into `new`: an empty free
list, `length` and backing-array size both `vs.length`, head at slot 0,
tail at the last slot, and slot `i` holding `vs[i]` linked to slot
`i + 1`. -/
def ChainInv (vs : List T) (lv : LinkedVector T) : Prop :=
  lv.freelist = [] ∧
  lv.length = vs.length ∧
  lv.data.length = vs.length ∧
  lv.head = (if vs.length = 0 then none else some 0) ∧
  lv.tail = (if vs.length = 0 then none else some (vs.length - 1)) ∧
  ∀ i, lv.data[i]? = nodeAt vs i

theorem chainInv_new : ChainInv ([] : List T) new := by
  refine ⟨rfl, rfl, rfl, rfl, rfl, fun i => ?_⟩
  simp [new, nodeAt]

theorem chainInv_push_back {vs : List T} {lv : LinkedVector T} (w : T)
    (h : ChainInv vs lv) : ChainInv (vs ++ [w]) (lv.push_back w) := by
  obtain ⟨hfl, hlen, hdlen, hhead, htail, hdata⟩ := h
  have hfl' : lv.freelist.getLast? = none := by simp [hfl]
  rcases Nat.eq_zero_or_pos vs.length with hz | hpos
  · -- the container was empty: the new node becomes both head and tail
    have hvs : vs = [] := List.length_eq_zero.mp hz
    subst hvs
    have hd : lv.data = [] := List.length_eq_zero.mp hdlen
    simp only [push_back, alloc, hfl', htail, hd, hdlen]
    refine ⟨hfl, by simpa using hlen, by simp, by simp, by simp, fun i => ?_⟩
    cases i with
    | zero => simp [nodeAt]
    | succ k => simp [nodeAt]
  · -- the container was non-empty: link the old tail slot to the new one
    have hne : vs.length ≠ 0 := Nat.pos_iff_ne_zero.mp hpos
    simp only [push_back, alloc, hfl', htail, if_neg hne]
    refine ⟨hfl, ?_, ?_, ?_, ?_, fun i => ?_⟩
    · simp [hlen]
    · simp [length_setNext, hdlen]
    · simp [hhead, hne]
    · simp [hdlen]
    · -- the per-slot description
      rw [getElem?_setNext]
      by_cases hi : i = vs.length - 1
      · subst hi
        have h1 : vs.length - 1 < lv.data.length := by omega
        have h2 : (lv.data ++ [⟨some w, none⟩])[vs.length - 1]? = lv.data[vs.length - 1]? := by
          rw [List.getElem?_append]; simp [h1]
        rw [if_pos rfl, h2, hdata, nodeAt, nodeAt]
        have h3 : ¬ (vs.length - 1 + 1 < vs.length) := by omega
        have h5 : (vs ++ [w])[vs.length - 1]? = vs[vs.length - 1]? := by
          rw [List.getElem?_append]; simp [h1, hdlen ▸ h1]
        rw [h5]
        have h6 : vs.length - 1 + 1 < (vs ++ [w]).length := by simp; omega
        have h7 : vs.length - 1 + 1 = vs.length := by omega
        simp only [if_neg h3, if_pos h6, hdlen, h7]
        cases vs[vs.length - 1]? <;> simp
      · rw [if_neg hi]
        rcases Nat.lt_trichotomy i vs.length with hlt | heq | hgt
        · have h2 : (lv.data ++ [⟨some w, none⟩])[i]? = lv.data[i]? := by
            rw [List.getElem?_append]; simp [hdlen ▸ hlt, hdlen, hlt]
          rw [h2, hdata, nodeAt, nodeAt]
          have h5 : (vs ++ [w])[i]? = vs[i]? := by
            rw [List.getElem?_append]; simp [hlt]
          rw [h5]
          have h3 : i + 1 < vs.length := by omega
          have h6 : i + 1 < (vs ++ [w]).length := by simp; omega
          simp only [if_pos h3, if_pos h6]
        · subst heq
          have h2 : (lv.data ++ [⟨some w, none⟩])[vs.length]? = some ⟨some w, none⟩ := by
            simp [hdlen.symm, List.getElem?_concat_length]
          have h5 : (vs ++ [w])[vs.length]? = some w := List.getElem?_concat_length vs w
          rw [h2, nodeAt, h5]
          simp
        · have h2 : (lv.data ++ [⟨some w, none⟩])[i]? = none := by
            apply List.getElem?_eq_none; simp [hdlen]; omega
          have h5 : (vs ++ [w])[i]? = none := by
            apply List.getElem?_eq_none; simp; omega
          rw [h2, nodeAt, h5]
          rfl

theorem chainInv_fromListBack (vs : List T) : ChainInv vs (fromListBack vs) := by
  induction vs using List.reverseRecOn with
  | nil => exact chainInv_new
  | append_singleton l a ih =>
    have h : fromListBack (l ++ [a]) = (fromListBack l).push_back a := by
      simp [fromListBack]
    rw [h]
    exact chainInv_push_back a ih

end LinkedVector

namespace LinkedVector

variable {T : Type}

/-! ## Size of the backing array under each operation -/

theorem true_len_push_front (lv : LinkedVector T) (v : T) :
    lv.true_len ≤ (lv.push_front v).true_len := by
  unfold push_front alloc
  cases h : lv.freelist.getLast? <;> simp [true_len]

theorem true_len_push_back (lv : LinkedVector T) (v : T) :
    lv.true_len ≤ (lv.push_back v).true_len := by
  unfold push_back alloc
  cases h : lv.freelist.getLast? <;>
    cases lv.tail <;> simp [true_len, length_setNext]

theorem pop_front_true_len {lv lv' : LinkedVector T} {r : Option T}
    (h : lv.pop_front = some (r, lv')) : lv'.true_len = lv.true_len := by
  unfold pop_front at h
  split at h
  · exact absurd h (by simp)
  · split at h
    · cases h; simp [true_len]
    · split at h
      · exact absurd h (by simp)
      · split at h
        · exact absurd h (by simp)
        · cases h; simp [true_len]

theorem delete_true_len {lv lv' : LinkedVector T} {i : Nat} {x : T}
    (h : lv.delete i = some (x, lv')) : lv'.true_len = lv.true_len := by
  unfold delete at h
  split at h
  · rcases Option.bind_eq_some.mp h with ⟨⟨r, lvp⟩, hp, hmap⟩
    rcases Option.map_eq_some'.mp hmap with ⟨y, hy, heq⟩
    cases heq
    exact pop_front_true_len hp
  · split at h
    · exact absurd h (by simp)
    · split at h
      · exact absurd h (by simp)
      · split at h
        · exact absurd h (by simp)
        · split at h
          · exact absurd h (by simp)
          · simp only [] at h
            split at h
            · exact absurd h (by simp)
            · split at h
              · exact absurd h (by simp)
              · cases h; simp [true_len, length_setNext]

/-- One public mutating operation of the container, recorded as a
transition between the state before and the state after; the fallible
operations (`pop_front`, `delete`) contribute a transition only when
they complete without a panic. -/
inductive Step : LinkedVector T → LinkedVector T → Prop
  | push_front_step (lv : LinkedVector T) (v : T) : Step lv (lv.push_front v)
  | push_back_step (lv : LinkedVector T) (v : T) : Step lv (lv.push_back v)
  | pop_front_step (lv lv' : LinkedVector T) (r : Option T) :
      lv.pop_front = some (r, lv') → Step lv lv'
  | delete_step (lv lv' : LinkedVector T) (i : Nat) (x : T) :
      lv.delete i = some (x, lv') → Step lv lv'

end LinkedVector

namespace LinkedVector

variable {T : Type}

theorem follow_chainInv {vs : List T} {lv : LinkedVector T} (h : ChainInv vs lv) :
    ∀ (k j : Nat), j + k < vs.length → lv.follow k (some j) = some (j + k) := by
  obtain ⟨hfl, hlen, hdlen, hhead, htail, hdata⟩ := h
  intro k
  induction k with
  | zero => intro j _; rfl
  | succ m ih =>
    intro j hj
    have hstep : lv.chainStep (some j) = some (j + 1) := by
      have hj1 : j + 1 < vs.length := by omega
      have hjlt : j < vs.length := by omega
      have hget : vs[j]? = some vs[j] := List.getElem?_eq_getElem hjlt
      simp [chainStep, hdata j, nodeAt, hget, if_pos hj1]
    show lv.follow m (lv.chainStep (some j)) = some (j + (m + 1))
    rw [hstep, ih (j + 1) (by omega)]
    congr 1
    omega

end LinkedVector

namespace LinkedVector

variable {T : Type}

/-! ## The claims -/

/-- Claim C1: The claim says `delete(index)` removes the element at logical
position `index` and returns that element's value. On the list built by
`push_front 10; push_front 20` (logical order `[20, 10]`, with `20` in
physical slot 1 and `10` in physical slot 0), the element at logical
position 1 is `10`, but `delete 1` returns `20`: the source takes the
returned item from physical slot `idx` (`self.data[idx].item.take()`)
instead of from the unlinked slot `remove_phys`. -/
theorem c1_delete_returns_wrong_element :
    ((((new : LinkedVector Nat).push_front 10).push_front 20).delete 1).map Prod.fst
        = some 20 ∧
    ((((new : LinkedVector Nat).push_front 10).push_front 20).index_get 1).bind
        LinkedNode.item = some 10 :=
  ⟨rfl, rfl⟩

/-- Claim C2: The claim says `pop_front` on an empty list returns the explicit
absent value and is not an error, as do the `head`/`tail` queries. The
queries do return `none`, but `pop_front` executes `self.length -= 1`
before inspecting `head`, so on an empty list the `usize` subtraction
underflows (a panic under checked arithmetic, a wrap to `2^64 - 1`
otherwise); the model returns `none` for the whole call, exhibiting the
panic. -/
theorem c2_pop_front_empty_underflows :
    (new : LinkedVector Nat).pop_front = none ∧
    (new : LinkedVector Nat).head_node = none ∧
    (new : LinkedVector Nat).tail_node = none :=
  ⟨rfl, rfl, rfl⟩

/-- Claim C3: The claim says that after every public operation,
`head = none ↔ tail = none ↔ length = 0`, and in particular popping the
last element clears both `head` and `tail`. But `pop_front` never
touches `tail`: after `push_back 0; pop_front` the state has
`head = none` and `length = 0` while `tail` still points at the freed
slot 0. -/
theorem c3_pop_last_leaves_stale_tail :
    (((new : LinkedVector Nat).push_back 0).pop_front).map
        (fun p => (p.1, p.2.head, p.2.tail, p.2.len))
      = some (some 0, none, some 0, 0) :=
  rfl

/-- Claim C4: The claim says `delete(len() - 1)` updates `tail` to the
predecessor slot. `delete` never writes `tail`: after
`push_back 1; push_back 2; delete 1` the new last element lives in slot
0, yet `tail` is still `some 1` — and slot 1 is on the free list. -/
theorem c4_delete_last_does_not_update_tail :
    ((((new : LinkedVector Nat).push_back 1).push_back 2).delete 1).map
        (fun p => (p.1, p.2.tail, p.2.freelist))
      = some (2, some 1, [1]) :=
  rfl

/-- Claim C5: The claim says `true_len() == len() + free_slot_count` after
every operation. The sequence
`push_back 1; pop_front; push_back 2; pop_front` completes without a
panic but ends with `true_len = 1` and `len + free_slot_count = 0`:
the stale `tail` left by the first pop makes the second `push_back`
link the recycled slot to itself without restoring `head`, and the
second `pop_front` then decrements `length` without freeing anything,
orphaning slot 0. -/
theorem c5_slot_accounting_violated :
    ((((new : LinkedVector Nat).push_back 1).pop_front).bind fun p =>
          (p.2.push_back 2).pop_front).map
        (fun q => (q.2.true_len, q.2.len + q.2.freelist.length))
      = some (1, 0) :=
  rfl

/-- Claim C6: `with_capacity n` (modelled from the spec, absent from the
library source) is an empty list — no live elements, `head` and `tail`
absent, length 0 — whose backing array reserves room for at least `n`
slots. -/
theorem c6_with_capacity_reserves (n : Nat) :
    (with_capacity n : LinkedVector T).len = 0 ∧
    (with_capacity n : LinkedVector T).head = none ∧
    (with_capacity n : LinkedVector T).tail = none ∧
    (with_capacity n : LinkedVector T).true_len = 0 ∧
    n ≤ (with_capacity n : LinkedVector T).capacity :=
  ⟨rfl, rfl, rfl, rfl, Nat.le_refl n⟩

/-- Claim C7: Pushing the values `vs` with `push_back` into a new empty list
and then reading logical index `i < vs.length` through the `Index` impl
returns `vs[i]`: the round trip preserves push order. -/
theorem c7_push_back_round_trip (vs : List T) (i : Nat) (h : i < vs.length) :
    ((fromListBack vs).index_get i).bind LinkedNode.item = some vs[i] := by
  obtain ⟨hfl, hlen, hdlen, hhead, htail, hdata⟩ := chainInv_fromListBack vs
  have hne : vs.length ≠ 0 := by omega
  unfold index_get
  rw [hhead, if_neg hne]
  have hfollow : (fromListBack vs).follow i (some 0) = some i := by
    have h0 := follow_chainInv (chainInv_fromListBack vs) i 0 (by omega)
    simpa using h0
  rw [hfollow, Option.some_bind, hdata i, nodeAt,
    List.getElem?_eq_getElem h]
  simp

/-- Witness for C7 at a concrete input: after pushing `[5, 7, 9]`,
index 1 reads back `7`. -/
theorem c7_push_back_round_trip_witness :
    ((fromListBack [5, 7, 9] : LinkedVector Nat).index_get 1).bind LinkedNode.item
      = some 7 :=
  c7_push_back_round_trip [5, 7, 9] 1 (by decide)

/-- Claim C8: The claim says `delete`/indexed access at `len() - 1` always
succeed and target the tail element. On `push_front 10; push_front 20;
push_front 30` (logical order `[30, 20, 10]`, length 3) the tail
element is `10`, but `delete 2` returns `30` — the head's value, taken
from physical slot 2 — so `delete` at the last logical index does not
target the tail element. -/
theorem c8_delete_at_last_index_misses_tail :
    ((((new : LinkedVector Nat).push_front 10).push_front 20).push_front 30).len = 3 ∧
    (((((new : LinkedVector Nat).push_front 10).push_front 20).push_front 30).delete 2).map
        Prod.fst = some 30 ∧
    ((((new : LinkedVector Nat).push_front 10).push_front 20).push_front 30).tail_node
      = some { item := some 10, next := none } :=
  ⟨rfl, rfl, rfl⟩

/-- Claim C9: Across any single public operation that completes (and hence
across any sequence of them), the size of the backing array never
decreases: reuse recycles slots, it never deallocates them. -/
theorem c9_true_len_monotone {lv lv' : LinkedVector T} (h : Step lv lv') :
    lv.true_len ≤ lv'.true_len := by
  cases h with
  | push_front_step v => exact true_len_push_front lv v
  | push_back_step v => exact true_len_push_back lv v
  | pop_front_step _ _ hp => exact (pop_front_true_len hp).ge
  | delete_step _ _ _ hd => exact (delete_true_len hd).ge

/-- Witness for C9: a concrete step (`push_front` on the empty list)
does not shrink the backing array. -/
theorem c9_true_len_monotone_witness :
    (new : LinkedVector Nat).true_len ≤ ((new : LinkedVector Nat).push_front 1).true_len :=
  c9_true_len_monotone (Step.push_front_step new 1)

/-- Claim C10: When the free list is non-empty, `push_front` and `push_back`
store the new element in the slot whose index was pushed onto the free
list most recently (its last entry — LIFO reuse) and leave the backing
array's size unchanged; when the free list is empty they append a new
slot, growing the backing array by exactly one. -/
theorem c10_alloc_lifo_reuse (lv : LinkedVector T) (v : T) :
    (∀ idx, lv.freelist.getLast? = some idx → idx < lv.data.length →
      (lv.push_front v).true_len = lv.true_len ∧
      (lv.push_front v).data[idx]? = some { item := some v, next := lv.head } ∧
      (lv.push_front v).head = some idx ∧
      (lv.push_back v).true_len = lv.true_len ∧
      ((lv.push_back v).data[idx]?).map LinkedNode.item = some (some v)) ∧
    (lv.freelist = [] →
      (lv.push_front v).true_len = lv.true_len + 1 ∧
      (lv.push_front v).data[lv.data.length]? = some { item := some v, next := lv.head } ∧
      (lv.push_back v).true_len = lv.true_len + 1 ∧
      ((lv.push_back v).data[lv.data.length]?).map LinkedNode.item = some (some v)) := by
  constructor
  · intro idx hlast hbound
    refine ⟨?_, ?_, ?_, ?_, ?_⟩
    · unfold push_front alloc
      simp only [hlast]
      simp [true_len]
    · unfold push_front alloc
      simp only [hlast]
      simp [List.getElem?_set_self', hbound]
    · unfold push_front alloc
      simp only [hlast]
    · unfold push_back alloc
      simp only [hlast]
      cases lv.tail <;> simp [true_len, length_setNext]
    · unfold push_back alloc
      simp only [hlast]
      cases htail : lv.tail with
      | none => simp [List.getElem?_set_self', hbound]
      | some tidx =>
        simp only [getElem?_setNext]
        by_cases hidx : idx = tidx
        · subst hidx
          simp [List.getElem?_set_self', hbound]
        · rw [if_neg hidx]
          simp [List.getElem?_set_self', hbound]
  · intro hfl
    have hlast : lv.freelist.getLast? = none := by simp [hfl]
    refine ⟨?_, ?_, ?_, ?_⟩
    · unfold push_front alloc
      simp only [hlast]
      simp [true_len]
    · unfold push_front alloc
      simp only [hlast]
      simp [List.getElem?_concat_length]
    · unfold push_back alloc
      simp only [hlast]
      cases lv.tail <;> simp [true_len, length_setNext]
    · unfold push_back alloc
      simp only [hlast]
      cases htail : lv.tail with
      | none => simp [List.getElem?_concat_length]
      | some tidx =>
        simp only [getElem?_setNext]
        by_cases hidx : lv.data.length = tidx
        · subst hidx
          simp [List.getElem?_concat_length]
        · rw [if_neg hidx]
          simp [List.getElem?_concat_length]

/-- The state reached by `push_back 1; push_back 2; pop_front`: slot 0
is on the free list, slot 1 is the only live slot. Used to witness the
slot-reuse behaviour at a concrete input. -/
def c10state : LinkedVector Nat :=
  { data := [{ item := none, next := some 1 }, { item := some 2, next := none }],
    dataCap := 2, head := some 1, tail := some 1, freelist := [0], length := 1 }

/-- Witness for C10 at concrete inputs: on `c10state` (free list `[0]`)
a push reuses slot 0 without growing the backing array, and on the empty
list (free list `[]`) a push grows the backing array by one. -/
theorem c10_alloc_lifo_reuse_witness :
    ((c10state.push_front 9).true_len = c10state.true_len ∧
      (c10state.push_front 9).data[(0 : Nat)]? = some { item := some 9, next := c10state.head } ∧
      (c10state.push_front 9).head = some 0 ∧
      (c10state.push_back 9).true_len = c10state.true_len ∧
      ((c10state.push_back 9).data[(0 : Nat)]?).map LinkedNode.item = some (some 9)) ∧
    (((new : LinkedVector Nat).push_front 9).true_len = (new : LinkedVector Nat).true_len + 1 ∧
      ((new : LinkedVector Nat).push_back 9).true_len = (new : LinkedVector Nat).true_len + 1) :=
  ⟨(c10_alloc_lifo_reuse c10state 9).1 0 rfl (by decide),
    ((c10_alloc_lifo_reuse new 9).2 rfl).1,
    ((c10_alloc_lifo_reuse new 9).2 rfl).2.2.1⟩

end LinkedVector
